import Mathlib

/-!
Shallow embedding of the review-trend-agent core
(`src/agents/topic_consolidation_agent.py`, `src/agents/batch_processor.py`,
`src/utils/report_generator.py`) and proofs about its specified behaviour.

Modelling conventions:
* Python `dict` objects are modelled as association lists (`List (K × V)`) with
  the exact mutation semantics of CPython dicts: assignment to an existing key
  replaces the value in place (keeping the key's position), assignment to a
  fresh key appends at the end, and lookup returns the first (unique) match.
* Calendar dates (`"YYYY-MM-DD"` strings in the Python code) are modelled by
  their proleptic-Gregorian ordinal day number (`Int`); `datetime.strptime` /
  `strftime` and `timedelta` arithmetic form a bijection between the date
  strings handled by the code and these ordinals, with `+ timedelta(days=1)`
  corresponding to `+ 1`.
* The OpenAI chat-completion call made by `consolidate_topics` is an external
  oracle; it is modelled by an `OracleOutcome` parameter: `ok groups` stands
  for a transport-level success whose JSON parsed to the given group list, and
  `failure` stands for any exception (transport error, malformed JSON, ...)
  reaching the `except` clause after the `tenacity` retry budget is spent.
-/

namespace ReviewTrend

/-- Lookup in the association-list model of a Python dict: first match wins
(keys are unique in any list built by `dinsert`, so this is the dict lookup). -/
def dget {K V : Type} [DecidableEq K] : List (K × V) → K → Option V
  | [], _ => none
  | p :: rest, k => if p.1 = k then some p.2 else dget rest k

/-- Model of Python `d.get(k, v0)`: lookup with a default. -/
def dgetD {K V : Type} [DecidableEq K] (d : List (K × V)) (k : K) (v0 : V) : V :=
  (dget d k).getD v0

/-- Model of Python `d[k] = v`: replace in place if the key exists (keeping its
position, as CPython dicts do), else append at the end. -/
def dinsert {K V : Type} [DecidableEq K] : List (K × V) → K → V → List (K × V)
  | [], k, v => [(k, v)]
  | p :: rest, k, v => if p.1 = k then (k, v) :: rest else p :: dinsert rest k v

/-- Model of Python `d.keys()` (in insertion order). -/
def dkeys {K V : Type} (d : List (K × V)) : List K :=
  d.map Prod.fst

/-- Canonical Topic Group, the dict shape produced by the consolidation oracle
and by the fallback paths of `consolidate_topics` (fields `canonical_name`,
`variants`, `description`, `category`). -/
structure Group where
  canonical_name : String
  variants : List String
  description : String
  category : String
  deriving DecidableEq, Repr

/-- Outcome of the oracle call inside `consolidate_topics`: `ok groups` is a
successful call whose JSON response parsed to `groups`; `failure` is any
exception caught by the `except` clause (after the retry budget). -/
inductive OracleOutcome where
  | ok (groups : List Group)
  | failure
  deriving DecidableEq, Repr

/-- Lexicographic comparison of character lists by Unicode code point, the
order Python uses to compare `str` values. -/
def strLeData : List Char → List Char → Bool
  | [], _ => true
  | _ :: _, [] => false
  | a :: as, b :: bs =>
      if a.toNat < b.toNat then true
      else if b.toNat < a.toNat then false
      else strLeData as bs

/-- Python string comparison `a <= b` (lexicographic by code point). -/
def pyLe (a b : String) : Bool :=
  strLeData a.data b.data

/-- Model of `sorted(list(set(topics)))` in `consolidate_topics` line 95:
the distinct elements of `topics` in ascending lexicographic order. -/
def uniqueSorted (topics : List String) : List String :=
  List.insertionSort (fun a b => pyLe a b = true) topics.dedup

/-- Model of `TopicConsolidationAgent._update_taxonomy` (lines 153-164): for
each group, for each variant, `self.topic_taxonomy[variant] = canonical`. -/
def updateTaxonomy (tax : List (String × String)) (groups : List Group) :
    List (String × String) :=
  groups.foldl (fun t g => g.variants.foldl (fun t' v => dinsert t' v g.canonical_name) t) tax

/-- Model of `TopicConsolidationAgent.consolidate_topics` (lines 85-151) as a
function of the oracle outcome and the agent's `topic_taxonomy` state; returns
the `consolidated_topics` list of the returned dict together with the
taxonomy state after the call.  The `reasoning` string of the returned dict is
not modelled (no claim concerns it). -/
def consolidate_topics (oracle : OracleOutcome) (tax : List (String × String))
    (topics : List String) : List Group × List (String × String) :=
  let unique := uniqueSorted topics
  if unique.length ≤ 1 then
    (if unique.isEmpty then []
     else [{ canonical_name := unique.headD "", variants := unique,
             description := "", category := "issue" }],
     tax)
  else
    match oracle with
    | .ok gs => (gs, updateTaxonomy tax gs)
    | .failure =>
        (unique.map (fun t =>
          { canonical_name := t, variants := [t], description := "", category := "issue" }),
         tax)

/-- Model of `TopicConsolidationAgent.map_to_canonical` (lines 166-175):
`self.topic_taxonomy.get(topic, topic)`. -/
def map_to_canonical (tax : List (String × String)) (topic : String) : String :=
  dgetD tax topic topic

/-- Model of the truly-new classification loop of `incremental_consolidation`
(lines 209-216): collect `canonical_name` of every result group whose
canonical name is not an existing name and that has at least one variant among
`new_topics`. -/
def trulyNewOf (existing_names new_topics : List String) (groups : List Group) :
    List String :=
  (groups.filter (fun g =>
      decide (g.canonical_name ∉ existing_names) &&
      g.variants.any (fun v => decide (v ∈ new_topics)))).map
    (fun g => g.canonical_name)

/-- Model of `TopicConsolidationAgent.incremental_consolidation` (lines
185-218): consolidate existing canonical names together with the new topics and
classify the truly-new canonical names.  Returns
`((updated_groups, truly_new), taxonomy_after)`. -/
def incremental_consolidation (oracle : OracleOutcome) (tax : List (String × String))
    (existing_canonical_topics : List Group) (new_topics : List String) :
    (List Group × List String) × List (String × String) :=
  let existing_names := existing_canonical_topics.map (fun g => g.canonical_name)
  let all_topics := existing_names ++ new_topics
  let r := consolidate_topics oracle tax all_topics
  ((r.1, trulyNewOf existing_names new_topics r.1), r.2)

/-- Calendar dates, modelled by their ordinal day number (see the header
comment): the `"YYYY-MM-DD"` strings of the Python code are in bijection with
these ordinals and `timedelta(days=1)` steps correspond to `+ 1`. -/
abbrev Date := Int

/-- Review Extraction Record as consumed by `process_daily_batch` step 4
(lines 67-74): only the `topics` list of each extraction dict is read there, so
the other fields (`review_id`, `content`, `date`, `score`, `sentiment`) are not
modelled. -/
structure Extraction where
  topics : List String
  deriving DecidableEq, Repr

/-- Model of `self.daily_topic_counts[date][k] += 1` on the inner (per-date)
defaultdict: missing keys read as `0`. -/
def dbump (d : List (String × Nat)) (k : String) : List (String × Nat) :=
  dinsert d k (dgetD d k 0 + 1)

/-- Model of step 4 of `BatchProcessor.process_daily_batch` (lines 67-74) for
one fixed date: for every extraction, for every topic string in its `topics`
list, increment the count of `map_to_canonical(topic)` in the per-date counts
dict `day`.  The taxonomy `tax` is fixed during the loop (the consolidation
step has already run). -/
def recordBatchCounts (tax : List (String × String)) (day : List (String × Nat))
    (extractions : List Extraction) : List (String × Nat) :=
  extractions.foldl
    (fun d e => e.topics.foldl (fun d' t => dbump d' (map_to_canonical tax t)) d) day

/-- The inclusive date range `[end_date - (days-1), end_date]` built by
`get_trend_data` lines 129-137 (and identically by `generate_trend_table`
lines 36-44): `start = end - timedelta(days=days-1)` followed by a
`while current <= end` loop appending one day at a time. -/
def dateRange (end_date : Date) (days : Nat) : List Date :=
  (List.range days).map (fun i : Nat => end_date - ((days : Int) - 1) + (i : Int))

/-- Model of `BatchProcessor.get_trend_data` (lines 115-153): `counts` is
`self.daily_topic_counts` ({date: {topic: count}}).  `all_topics` collects the
keys of `daily_topic_counts.get(date, {})` over the range (a Python `set`,
modelled as a deduplicated list), and the result maps every such topic to the
dense inner dict over the whole range, reading missing entries as `0`. -/
def get_trend_data (counts : List (Date × List (String × Nat))) (end_date : Date)
    (days : Nat) : List (String × List (Date × Nat)) :=
  let range := dateRange end_date days
  let all_topics := (range.flatMap (fun d => dkeys (dgetD counts d []))).dedup
  all_topics.map (fun t => (t, range.map (fun d => (d, dgetD (dgetD counts d []) t 0))))

/-- The mutable state of a `BatchProcessor` together with its consolidation
agent's `topic_taxonomy` (the extraction/consolidation agents themselves are
oracles and carry no other state read by the claims). -/
structure Processor where
  consolidated_topics : List Group
  topic_taxonomy : List (String × String)
  daily_topic_counts : List (Date × List (String × Nat))
  all_extractions : List Extraction

/-- A fresh `BatchProcessor.__init__` state (lines 17-24). -/
def freshProcessor : Processor :=
  { consolidated_topics := [], topic_taxonomy := [], daily_topic_counts := [],
    all_extractions := [] }

/-- The JSON document written by `BatchProcessor.save_state` (lines 155-176).
`json.dump`/`json.load` round-trip string-keyed objects of ints and strings
faithfully (key order preserved, ints exact), so the document is modelled by
the structured data it contains. -/
structure SavedState where
  consolidated_topics : List Group
  topic_taxonomy : List (String × String)
  daily_topic_counts : List (Date × List (String × Nat))
  total_extractions : Nat
  deriving DecidableEq, Repr

/-- Model of `BatchProcessor.save_state` (lines 155-176): the state dict is
built from `self.consolidated_topics`, `get_taxonomy()` (a copy), a per-date
`dict(counts)` copy of `self.daily_topic_counts`, and `len(self.all_extractions)`. -/
def save_state (p : Processor) : SavedState :=
  { consolidated_topics := p.consolidated_topics,
    topic_taxonomy := p.topic_taxonomy,
    daily_topic_counts := p.daily_topic_counts,
    total_extractions := p.all_extractions.length }

/-- Model of `BatchProcessor.load_state` (lines 178-194) applied to a
processor `p` (a fresh one in claim C9): sets `consolidated_topics` and the
agent's `topic_taxonomy` from the document, then for each `(date, counts)`
item of the document's `daily_topic_counts`, in order, assigns
`self.daily_topic_counts[date] = defaultdict(int, counts)`. -/
def load_state (p : Processor) (s : SavedState) : Processor :=
  { consolidated_topics := s.consolidated_topics,
    topic_taxonomy := s.topic_taxonomy,
    daily_topic_counts :=
      s.daily_topic_counts.foldl (fun d q => dinsert d q.1 q.2) p.daily_topic_counts,
    all_extractions := p.all_extractions }

/-- The `Trend` column value of a row of the report table: a signed percentage
(kept exact in `ℚ`; the Python code formats it with one decimal), the literal
label `"NEW"`, or the literal label `"-"`. -/
inductive TrendLabel where
  | pct (value : ℚ)
  | newLabel
  | dash
  deriving DecidableEq, Repr

/-- Model of the trend computation of `generate_trend_table` (lines 62-72) on
the chronological list of counts of one row: if the window has at least 14
days, compare the mean of the last 7 counts with the mean of the 7 before
that.  Python computes the averages in floating point; sums of small naturals
divided by 7 keep the comparisons with `0` exact, and the percentage is
modelled exactly in `ℚ`. -/
def trendLabel (counts : List Nat) : TrendLabel :=
  if 14 ≤ counts.length then
    let recent_avg : ℚ := ((counts.drop (counts.length - 7)).sum : ℚ) / 7
    let previous_avg : ℚ := (((counts.drop (counts.length - 14)).take 7).sum : ℚ) / 7
    if 0 < previous_avg then .pct ((recent_avg - previous_avg) / previous_avg * 100)
    else if 0 < recent_avg then .newLabel
    else .dash
  else .dash

/-- One row of the report table built by `generate_trend_table` (lines 47-74):
the topic, its per-day counts over the window in chronological order (the
per-day `"%b %d"` columns of the DataFrame, whose headers are a bijective
reformatting of the dates), the `Total` column and the `Trend` column. -/
structure Row where
  topic : String
  counts : List Nat
  total : Nat
  trend : TrendLabel
  deriving DecidableEq, Repr

/-- The `table_data` list of `generate_trend_table` (lines 46-74): one row per
`(topic, date_counts)` item of `trend_data`, in encounter order, with counts
read over the window via `date_counts.get(date, 0)`. -/
def tableRows (trend_data : List (String × List (Date × Nat))) (target_date : Date)
    (days : Nat) : List Row :=
  trend_data.map (fun p =>
    let counts := (dateRange target_date days).map (fun d => dgetD p.2 d 0)
    { topic := p.1, counts := counts, total := counts.sum, trend := trendLabel counts })

/-- Model of `df.sort_values('Total', ascending=False)` (line 80): pandas
sorts a single column through `nargsort` (pandas/core/sorting.py), which for
`ascending=False` first reverses the values and their positions, computes an
ascending argsort of the reversed values, and reverses the resulting indexer —
so that with a stable underlying argsort the descending sort is also stable
(tied rows keep their original relative order; pandas GH#6399 pins this with a
regression test).  At the list level this is
`reverse (stable-ascending-sort (reverse rows))`.  numpy's `kind='quicksort'`
argsort is an introsort that runs a stable insertion sort below its
small-array cutoff; the model takes that stable regime. -/
def sortValuesDesc (rows : List Row) : List Row :=
  (List.insertionSort (fun a b => a.total ≤ b.total) rows.reverse).reverse

/-- Model of `ReportGenerator.generate_trend_table` (lines 19-82): build one
row per topic of `trend_data` in encounter order, then sort by `Total`
descending. -/
def generate_trend_table (trend_data : List (String × List (Date × Nat)))
    (target_date : Date) (days : Nat) : List Row :=
  sortValuesDesc (tableRows trend_data target_date days)

/-- The sequence of `mapping[variant] = canonical` writes performed by one
`record_groups`/`_update_taxonomy` call, in group order then variant order. -/
def groupWrites (groups : List Group) : List (String × String) :=
  groups.flatMap (fun g => g.variants.map (fun v => (v, g.canonical_name)))

/-- Spec-side characterization for claim C3: the canonical name written by the
last write for `v` in the write sequence `ws`, if any. -/
def lastWrite (ws : List (String × String)) (v : String) : Option String :=
  ws.foldl (fun acc p => if p.1 = v then some p.2 else acc) none

/-- Spec property for claim C4 (amended): over the inclusive window
`[end_date-(days-1), end_date]`, (1) every returned topic's inner mapping has
one entry per date of the range, in order — hence exactly `days` keys — each
equal to the recorded count with `0` filled in for missing dates; (2) a topic
is included iff it appears as a recorded key of some date of the range; and
(3) when every recorded count is positive (as in any state produced only by
`process_daily_batch`, whose counts are built by `+= 1`), a topic is included
iff it has a non-zero recorded count on some date of the range. -/
def TrendWindowSpec (counts : List (Date × List (String × Nat))) (end_date : Date)
    (days : Nat) : Prop :=
  (∀ t m, (t, m) ∈ get_trend_data counts end_date days →
      m.map Prod.fst = dateRange end_date days ∧
      m.length = days ∧
      ∀ d c, (d, c) ∈ m → c = dgetD (dgetD counts d []) t 0) ∧
  (∀ t, (∃ m, (t, m) ∈ get_trend_data counts end_date days) ↔
      ∃ d ∈ dateRange end_date days, t ∈ dkeys (dgetD counts d [])) ∧
  ((∀ d dc, (d, dc) ∈ counts → ∀ q ∈ dc, 0 < q.2) →
    ∀ t, (∃ m, (t, m) ∈ get_trend_data counts end_date days) ↔
      ∃ d ∈ dateRange end_date days, 0 < dgetD (dgetD counts d []) t 0)

/-- Spec property for claim C5, phrased on a row of the generated table: with
fewer than 14 days in the window the trend is `"-"`; with at least 14 days,
letting `recent` be the average of the last 7 days' counts and `previous` the
average of the 7 days before that, the trend is the signed percentage
`(recent - previous) / previous * 100` when `previous > 0`, is `"NEW"` when
`previous = 0 < recent`, and is `"-"` when both averages are zero. -/
def TrendLabelSpec (r : Row) : Prop :=
  let recent : ℚ := ((r.counts.rtake 7).sum : ℚ) / 7
  let previous : ℚ := (((r.counts.rdrop 7).rtake 7).sum : ℚ) / 7
  (r.counts.length < 14 → r.trend = .dash) ∧
  (14 ≤ r.counts.length →
    (0 < previous → r.trend = .pct ((recent - previous) / previous * 100)) ∧
    (previous = 0 → 0 < recent → r.trend = .newLabel) ∧
    (previous = 0 → recent = 0 → r.trend = .dash))

/-! Basic lemmas about the dict model. -/

theorem dget_dinsert {K V : Type} [DecidableEq K] (d : List (K × V)) (k k' : K) (v : V) :
    dget (dinsert d k v) k' = if k = k' then some v else dget d k' := by
  induction d with
  | nil => by_cases h : k = k' <;> simp [dget, dinsert, h]
  | cons p rest ih =>
      by_cases h1 : p.1 = k
      · by_cases h2 : k = k' <;> simp [dget, dinsert, h1, h2]
      · by_cases h2 : p.1 = k'
        · have h3 : k ≠ k' := fun e => h1 (e ▸ h2)
          have h4 : k' ≠ k := fun e => h3 e.symm
          simp [dget, dinsert, h1, h2, h3, h4]
        · simp [dget, dinsert, h1, h2, ih]

theorem dget_eq_none_iff {K V : Type} [DecidableEq K] (d : List (K × V)) (k : K) :
    dget d k = none ↔ k ∉ dkeys d := by
  induction d with
  | nil => simp [dget, dkeys]
  | cons p rest ih =>
      by_cases h : p.1 = k <;> simp [dget, dkeys, h, ih] <;> tauto

theorem dget_mem {K V : Type} [DecidableEq K] {d : List (K × V)} {k : K} {v : V}
    (h : dget d k = some v) : (k, v) ∈ d := by
  induction d with
  | nil => simp [dget] at h
  | cons p rest ih =>
      by_cases h1 : p.1 = k
      · simp only [dget, h1, if_pos] at h
        have hp : p = (k, v) := by
          cases p
          simp_all
        rw [hp]
        exact List.mem_cons_self _ _
      · simp only [dget, h1, if_neg, if_false] at h
        exact List.mem_cons_of_mem _ (ih h)

theorem mem_dkeys_iff_dget {K V : Type} [DecidableEq K] (d : List (K × V)) (k : K) :
    k ∈ dkeys d ↔ ∃ v, dget d k = some v := by
  constructor
  · intro h
    cases hv : dget d k with
    | none => exact absurd ((dget_eq_none_iff d k).1 hv) (by simp [h])
    | some v => exact ⟨v, rfl⟩
  · rintro ⟨v, hv⟩
    by_contra hk
    rw [← dget_eq_none_iff] at hk
    simp [hk] at hv

theorem dinsert_of_not_mem {K V : Type} [DecidableEq K] {d : List (K × V)} {k : K}
    (h : k ∉ dkeys d) (v : V) : dinsert d k v = d ++ [(k, v)] := by
  induction d with
  | nil => rfl
  | cons p rest ih =>
      simp only [dkeys, List.map_cons, List.mem_cons] at h
      push_neg at h
      have h1 : p.1 ≠ k := fun e => h.1 e.symm
      simp [dinsert, h1, ih (by simpa [dkeys] using h.2)]

/-! Order lemmas for the Python string comparison. -/

theorem strLeData_total (as bs : List Char) :
    strLeData as bs = true ∨ strLeData bs as = true := by
  induction as generalizing bs with
  | nil => left; simp [strLeData]
  | cons a as ih =>
      cases bs with
      | nil => right; simp [strLeData]
      | cons b bs' =>
          rcases Nat.lt_trichotomy a.toNat b.toNat with h | h | h
          · left; simp [strLeData, h]
          · have h2 : ¬ a.toNat < b.toNat := by omega
            have h3 : ¬ b.toNat < a.toNat := by omega
            rcases ih bs' with hh | hh
            · left; simp [strLeData, h2, h3, hh]
            · right; simp [strLeData, h2, h3, hh]
          · right; simp [strLeData, h]

theorem strLeData_trans {as bs cs : List Char} (h1 : strLeData as bs = true)
    (h2 : strLeData bs cs = true) : strLeData as cs = true := by
  induction as generalizing bs cs with
  | nil => simp [strLeData]
  | cons a as ih =>
      cases bs with
      | nil => simp [strLeData] at h1
      | cons b bs' =>
          cases cs with
          | nil => simp [strLeData] at h2
          | cons c cs' =>
              simp only [strLeData] at h1 h2 ⊢
              rcases Nat.lt_trichotomy a.toNat b.toNat with hab | hab | hab <;>
                rcases Nat.lt_trichotomy b.toNat c.toNat with hbc | hbc | hbc <;>
                  first
                    | (simp only [if_pos (show a.toNat < c.toNat by omega)])
                    | (simp [show ¬ b.toNat < c.toNat by omega,
                             show c.toNat < b.toNat by omega] at h2)
                    | (simp [show ¬ a.toNat < b.toNat by omega,
                             show b.toNat < a.toNat by omega] at h1)
                    | (have hac : ¬ a.toNat < c.toNat := by omega
                       have hca : ¬ c.toNat < a.toNat := by omega
                       simp only [if_neg hac, if_neg hca]
                       simp only [show ¬ a.toNat < b.toNat by omega,
                         show ¬ b.toNat < a.toNat by omega, if_neg, ite_false,
                         show ¬ b.toNat < c.toNat by omega,
                         show ¬ c.toNat < b.toNat by omega] at h1 h2
                       exact ih h1 h2)

theorem strLeData_antisymm {as bs : List Char} (h1 : strLeData as bs = true)
    (h2 : strLeData bs as = true) : as = bs := by
  induction as generalizing bs with
  | nil =>
      cases bs with
      | nil => rfl
      | cons b bs' => simp [strLeData] at h2
  | cons a as ih =>
      cases bs with
      | nil => simp [strLeData] at h1
      | cons b bs' =>
          simp only [strLeData] at h1 h2
          rcases Nat.lt_trichotomy a.toNat b.toNat with hab | hab | hab
          · simp [show ¬ b.toNat < a.toNat by omega, hab] at h2
          · have ha : a = b := by
              apply Char.ext
              unfold Char.toNat at hab
              exact UInt32.toNat.inj hab
            have hnl : ¬ a.toNat < b.toNat := by omega
            have hnr : ¬ b.toNat < a.toNat := by omega
            simp only [if_neg hnl, if_neg hnr] at h1 h2
            rw [ha, ih h1 h2]
          · simp [show ¬ a.toNat < b.toNat by omega, hab] at h1

theorem pyLe_total (a b : String) : pyLe a b = true ∨ pyLe b a = true :=
  strLeData_total a.data b.data

theorem pyLe_trans {a b c : String} (h1 : pyLe a b = true) (h2 : pyLe b c = true) :
    pyLe a c = true :=
  strLeData_trans h1 h2

theorem pyLe_antisymm {a b : String} (h1 : pyLe a b = true) (h2 : pyLe b a = true) :
    a = b := by
  cases a with
  | mk da =>
      cases b with
      | mk db => exact congrArg String.mk (strLeData_antisymm h1 h2)

/-! Lemmas about `uniqueSorted`. -/

theorem mem_uniqueSorted {x : String} {l : List String} :
    x ∈ uniqueSorted l ↔ x ∈ l := by
  unfold uniqueSorted
  rw [(List.perm_insertionSort _ _).mem_iff, List.mem_dedup]

theorem nodup_uniqueSorted (l : List String) : (uniqueSorted l).Nodup :=
  ((List.perm_insertionSort _ _).nodup_iff).mpr l.nodup_dedup

theorem sorted_uniqueSorted (l : List String) :
    (uniqueSorted l).Pairwise (fun a b => pyLe a b = true) := by
  have h1 : IsTotal String (fun a b => pyLe a b = true) := ⟨pyLe_total⟩
  have h2 : IsTrans String (fun a b => pyLe a b = true) := ⟨fun _ _ _ => pyLe_trans⟩
  exact List.sorted_insertionSort _ _

theorem strictSorted_uniqueSorted (l : List String) :
    (uniqueSorted l).Pairwise (fun a b => pyLe a b = true ∧ a ≠ b) :=
  ((sorted_uniqueSorted l).and (nodup_uniqueSorted l))

theorem uniqueSorted_eq_of_mem_iff {l₁ l₂ : List String}
    (h : ∀ x, x ∈ l₁ ↔ x ∈ l₂) : uniqueSorted l₁ = uniqueSorted l₂ := by
  have hanti : IsAntisymm String (fun a b => pyLe a b = true) :=
    ⟨fun _ _ => pyLe_antisymm⟩
  have hperm : List.Perm (uniqueSorted l₁) (uniqueSorted l₂) :=
    (List.perm_ext_iff_of_nodup (nodup_uniqueSorted _) (nodup_uniqueSorted _)).2
      (fun a => by rw [mem_uniqueSorted, mem_uniqueSorted]; exact h a)
  exact List.eq_of_perm_of_sorted hperm (sorted_uniqueSorted _) (sorted_uniqueSorted _)

/-! Claims about the consolidation agent. -/

theorem fallback_canonicals (tax : List (String × String)) (topics : List String) :
    (consolidate_topics .failure tax topics).1.map (fun g => g.canonical_name)
      = uniqueSorted topics := by
  unfold consolidate_topics
  by_cases hlen : (uniqueSorted topics).length ≤ 1
  · cases hu : uniqueSorted topics with
    | nil => simp [hu]
    | cons x xs =>
        rw [hu] at hlen
        have hxs : xs = [] := by
          cases xs with
          | nil => rfl
          | cons y ys => simp at hlen
        subst hxs
        simp [hu]
  · simp only [hlen, if_neg, ite_false, List.map_map]
    exact List.map_id _

/-- C6: if the deduplicated input is empty, `consolidate_topics` returns an
empty group list and leaves the taxonomy untouched; if it has exactly one
element `x`, it returns the single singleton group for `x` with category
`"issue"` and leaves the taxonomy untouched.  The conclusion holds for every
value of the `oracle` parameter, which models that the oracle is not invoked
on these paths (the short-circuit return happens before the API call). -/
theorem consolidate_topics_short_circuit (oracle : OracleOutcome)
    (tax : List (String × String)) (topics : List String) :
    (uniqueSorted topics = [] → consolidate_topics oracle tax topics = ([], tax)) ∧
    (∀ x, uniqueSorted topics = [x] →
      consolidate_topics oracle tax topics =
        ([{ canonical_name := x, variants := [x], description := "", category := "issue" }],
         tax)) := by
  constructor
  · intro h
    simp [consolidate_topics, h]
  · intro x h
    simp [consolidate_topics, h]

/-- C6 witness: `consolidate_topics` on `[]` and on `["X", "X"]`, evaluated
through the theorem (with two different oracle values). -/
theorem consolidate_topics_short_circuit_witness :
    consolidate_topics .failure [] [] = ([], []) ∧
    consolidate_topics (.ok [(⟨"Z", ["Z"], "", "issue"⟩ : Group)]) [] ["X", "X"] =
      ([{ canonical_name := "X", variants := ["X"], description := "", category := "issue" }],
       []) := by
  constructor
  · exact (consolidate_topics_short_circuit .failure [] []).1 (by decide)
  · exact (consolidate_topics_short_circuit _ [] ["X", "X"]).2 "X" (by decide)

/-- C1 counterexample: consolidating the two distinct topics `"a"`, `"b"`
from an empty taxonomy with a failing oracle leaves the Taxonomy Store empty —
no identity mapping `"a" → "a"` is recorded, so `map_to_canonical "a"` cannot
return `"a"` via a stored entry (the `except` branch of `consolidate_topics`
returns without calling `_update_taxonomy`). -/
theorem consolidate_topics_failure_records_nothing :
    (consolidate_topics .failure [] ["a", "b"]).2 = [] ∧
    dget (consolidate_topics .failure [] ["a", "b"]).2 "a" = none := by
  decide

/-- C1 (amended): with at least two distinct input topics and a failing
oracle, `consolidate_topics` returns one singleton group per distinct topic
(canonical name and single variant equal to the topic, category `"issue"`, in
ascending lexicographic order) and leaves the Taxonomy Store unchanged; for a
topic with no previously stored mapping, `map_to_canonical` afterwards still
returns the topic itself, but via the identity fallback, not a stored entry. -/
theorem consolidate_topics_failure_fallback (tax : List (String × String))
    (topics : List String) (h : 2 ≤ (uniqueSorted topics).length) :
    consolidate_topics .failure tax topics =
      ((uniqueSorted topics).map (fun t =>
        { canonical_name := t, variants := [t], description := "", category := "issue" }),
       tax) ∧
    ∀ t, t ∉ dkeys tax →
      map_to_canonical (consolidate_topics .failure tax topics).2 t = t := by
  have hlen : ¬ (uniqueSorted topics).length ≤ 1 := by omega
  constructor
  · simp [consolidate_topics, hlen]
  · intro t ht
    simp [consolidate_topics, hlen, map_to_canonical, dgetD,
      (dget_eq_none_iff tax t).2 ht]

/-- C1 witness: the amended fallback behaviour evaluated on `["b", "a"]` from
an empty taxonomy. -/
theorem consolidate_topics_failure_fallback_witness :
    consolidate_topics .failure [] ["b", "a"] =
      ([{ canonical_name := "a", variants := ["a"], description := "", category := "issue" },
        { canonical_name := "b", variants := ["b"], description := "", category := "issue" }],
       []) ∧
    map_to_canonical (consolidate_topics .failure [] ["b", "a"]).2 "a" = "a" := by
  have h := consolidate_topics_failure_fallback [] ["b", "a"] (by decide)
  exact ⟨h.1.trans (by decide), h.2 "a" (by decide)⟩

/-- C10: `consolidate_topics` normalizes its input by deduplicating and
sorting, so two inputs with the same set of elements give identical results
(stated for every oracle outcome, hence in particular for both no-oracle
paths); moreover the fallback output lists one singleton group per distinct
topic in strictly ascending lexicographic (code-point) order. -/
theorem consolidate_topics_set_invariance (oracle : OracleOutcome)
    (tax : List (String × String)) (t₁ t₂ : List String)
    (h : ∀ x, x ∈ t₁ ↔ x ∈ t₂) :
    consolidate_topics oracle tax t₁ = consolidate_topics oracle tax t₂ ∧
    (consolidate_topics .failure tax t₁).1.map (fun g => g.canonical_name)
      = uniqueSorted t₁ ∧
    (uniqueSorted t₁).Pairwise (fun a b => pyLe a b = true ∧ a ≠ b) := by
  have he := uniqueSorted_eq_of_mem_iff h
  refine ⟨?_, fallback_canonicals tax t₁, strictSorted_uniqueSorted t₁⟩
  unfold consolidate_topics
  rw [he]

/-- C10 witness: `["b", "a", "a"]` and `["a", "b"]` have the same element set
and produce identical consolidation results; the fallback groups come out in
ascending order `["a", "b"]`. -/
theorem consolidate_topics_set_invariance_witness :
    consolidate_topics .failure [] ["b", "a", "a"] =
      consolidate_topics .failure [] ["a", "b"] ∧
    (consolidate_topics .failure [] ["b", "a", "a"]).1.map (fun g => g.canonical_name)
      = ["a", "b"] := by
  have h := consolidate_topics_set_invariance .failure [] ["b", "a", "a"] ["a", "b"]
    (by intro x; simp [List.mem_cons]; tauto)
  exact ⟨h.1, h.2.1.trans (by decide)⟩

/-- C2: a canonical name is in the truly-new list of
`incremental_consolidation` iff some group of the consolidation result has
that canonical name, the name is not among the existing canonical names, and
at least one of the group's variants is among the new topics; in particular,
with existing names `["A"]` and new topics `["B"]`, an oracle result grouping
everything under canonical `"A"` yields no truly-new names, while grouping
under canonical `"B"` yields exactly `["B"]`. -/
theorem incremental_consolidation_truly_new (oracle : OracleOutcome)
    (tax : List (String × String)) (existing : List Group) (new_topics : List String) :
    (∀ c, c ∈ (incremental_consolidation oracle tax existing new_topics).1.2 ↔
      ∃ g ∈ (incremental_consolidation oracle tax existing new_topics).1.1,
        g.canonical_name = c ∧
        c ∉ existing.map (fun g' => g'.canonical_name) ∧
        ∃ v ∈ g.variants, v ∈ new_topics) ∧
    (incremental_consolidation (.ok [(⟨"A", ["A", "B"], "", "issue"⟩ : Group)]) []
        [(⟨"A", ["A"], "", "issue"⟩ : Group)] ["B"]).1.2 = [] ∧
    (incremental_consolidation (.ok [(⟨"B", ["A", "B"], "", "issue"⟩ : Group)]) []
        [(⟨"A", ["A"], "", "issue"⟩ : Group)] ["B"]).1.2 = ["B"] := by
  refine ⟨?_, by decide, by decide⟩
  intro c
  unfold incremental_consolidation trulyNewOf
  simp only [List.mem_map, List.mem_filter, Bool.and_eq_true, decide_eq_true_eq,
    List.any_eq_true]
  constructor
  · rintro ⟨g, ⟨hg, hnot, v, hv, hvnew⟩, hc⟩
    exact ⟨g, hg, hc, hc ▸ hnot, v, hv, hvnew⟩
  · rintro ⟨g, hg, hc, hnot, v, hv, hvnew⟩
    exact ⟨g, ⟨hg, hc.symm ▸ hnot, v, hv, hvnew⟩, hc⟩

/-! Claim C3: last-write-wins semantics of the Taxonomy Store. -/

theorem foldl_dinsert_pairs {K V : Type} [DecidableEq K] (vs : List K) (c : V)
    (t : List (K × V)) :
    vs.foldl (fun t' v => dinsert t' v c) t
      = (vs.map (fun v => (v, c))).foldl (fun t' p => dinsert t' p.1 p.2) t := by
  induction vs generalizing t with
  | nil => rfl
  | cons v vs ih =>
      simp only [List.map_cons, List.foldl_cons]
      exact ih _

theorem updateTaxonomy_eq_foldl_writes (tax : List (String × String))
    (groups : List Group) :
    updateTaxonomy tax groups
      = (groupWrites groups).foldl (fun t p => dinsert t p.1 p.2) tax := by
  induction groups generalizing tax with
  | nil => rfl
  | cons g gs ih =>
      have h1 : groupWrites (g :: gs)
          = g.variants.map (fun v => (v, g.canonical_name)) ++ groupWrites gs := by
        simp [groupWrites]
      show updateTaxonomy (g.variants.foldl (fun t' v => dinsert t' v g.canonical_name) tax) gs
        = _
      rw [ih, h1, List.foldl_append, foldl_dinsert_pairs]

theorem lastWrite_foldl_acc (ws : List (String × String)) (v : String)
    (a : Option String) :
    ws.foldl (fun acc p => if p.1 = v then some p.2 else acc) a
      = (lastWrite ws v).or a := by
  induction ws generalizing a with
  | nil => rfl
  | cons p ws ih =>
      simp only [List.foldl_cons]
      rw [ih]
      have hl : lastWrite (p :: ws) v
          = (lastWrite ws v).or (if p.1 = v then some p.2 else none) := by
        show ws.foldl (fun acc q => if q.1 = v then some q.2 else acc)
          (if p.1 = v then some p.2 else none) = _
        exact ih _
      rw [hl]
      cases hw : lastWrite ws v with
      | some c => simp [Option.or]
      | none => by_cases h : p.1 = v <;> simp [Option.or, h]

theorem dget_foldl_writes (ws : List (String × String)) (t : List (String × String))
    (k : String) :
    dget (ws.foldl (fun t' p => dinsert t' p.1 p.2) t) k = (lastWrite ws k).or (dget t k) := by
  induction ws generalizing t with
  | nil => rfl
  | cons p ws ih =>
      simp only [List.foldl_cons, ih, dget_dinsert]
      have hs : lastWrite (p :: ws) k = (lastWrite ws k).or (if p.1 = k then some p.2 else none) := by
        simp only [lastWrite, List.foldl_cons]
        exact lastWrite_foldl_acc ws k _
      rw [hs]
      by_cases h : p.1 = k <;>
        cases hl : lastWrite ws k <;> simp [h, Option.or]

theorem foldl_updateTaxonomy_eq (gss : List (List Group)) (t : List (String × String)) :
    gss.foldl updateTaxonomy t
      = ((gss.map groupWrites).flatten).foldl (fun t' p => dinsert t' p.1 p.2) t := by
  induction gss generalizing t with
  | nil => rfl
  | cons gs gss ih =>
      simp only [List.foldl_cons, List.map_cons, List.flatten_cons, List.foldl_append]
      rw [ih, updateTaxonomy_eq_foldl_writes]

/-- C3: starting from an empty taxonomy and applying any finite sequence of
`record_groups` (`_update_taxonomy`) calls, `map_to_canonical v` returns the
canonical name of the last write for `v` in the concatenated write sequence
(group order, then variant order, later writes overwriting earlier ones), and
returns `v` itself when no recorded group ever contained `v` as a variant.
`map_to_canonical` is a pure read (`dict.get`), so the value is unchanged by
repeated calls until a later `record_groups` call writes `v` again. -/
theorem map_to_canonical_last_write (gss : List (List Group)) (v : String) :
    map_to_canonical (gss.foldl updateTaxonomy []) v
      = (lastWrite ((gss.map groupWrites).flatten) v).getD v := by
  unfold map_to_canonical dgetD
  rw [foldl_updateTaxonomy_eq, dget_foldl_writes]
  cases lastWrite ((gss.map groupWrites).flatten) v <;> simp [Option.or, dget]

/-! Claim C8: commutative accumulation of daily counts. -/

theorem dgetD_dbump (d : List (String × Nat)) (k t : String) :
    dgetD (dbump d k) t 0 = dgetD d t 0 + (if k = t then 1 else 0) := by
  unfold dbump dgetD
  rw [dget_dinsert]
  by_cases h : k = t <;> simp [h]

theorem dgetD_foldl_dbump (tax : List (String × String)) (ts : List String)
    (d : List (String × Nat)) (t : String) :
    dgetD (ts.foldl (fun d' s => dbump d' (map_to_canonical tax s)) d) t 0
      = dgetD d t 0 + ts.countP (fun s => decide (map_to_canonical tax s = t)) := by
  induction ts generalizing d with
  | nil => simp
  | cons s ts ih =>
      simp only [List.foldl_cons, ih, List.countP_cons, dgetD_dbump]
      by_cases h : map_to_canonical tax s = t <;> simp [h] <;> omega

theorem dgetD_recordBatchCounts (tax : List (String × String))
    (day : List (String × Nat)) (es : List Extraction) (t : String) :
    dgetD (recordBatchCounts tax day es) t 0
      = dgetD day t 0 + (es.flatMap (fun e => e.topics)).countP
          (fun s => decide (map_to_canonical tax s = t)) := by
  induction es generalizing day with
  | nil => simp [recordBatchCounts]
  | cons e es ih =>
      show dgetD (recordBatchCounts tax (e.topics.foldl
          (fun d' s => dbump d' (map_to_canonical tax s)) day) es) t 0 = _
      rw [ih, dgetD_foldl_dbump]
      simp only [List.flatMap_cons, List.countP_append]
      omega

/-- C8: for a fixed date and taxonomy, recording two extraction batches whose
flattened topic-occurrence sequences are permutations of each other (which
covers permuting the extraction records and permuting the topic strings inside
each extraction) produces identical final counts for every topic; and the
final count of a topic equals its initial count plus the number of topic
occurrences (duplicates included) whose canonical form is that topic — each
occurrence contributes exactly one increment. -/
theorem record_counts_perm_invariant (tax : List (String × String))
    (day : List (String × Nat)) (e₁ e₂ : List Extraction)
    (h : List.Perm (e₁.flatMap (fun e => e.topics)) (e₂.flatMap (fun e => e.topics))) :
    (∀ t, dgetD (recordBatchCounts tax day e₁) t 0
        = dgetD (recordBatchCounts tax day e₂) t 0) ∧
    (∀ t, dgetD (recordBatchCounts tax day e₁) t 0
        = dgetD day t 0 + (e₁.flatMap (fun e => e.topics)).countP
            (fun s => decide (map_to_canonical tax s = t))) := by
  refine ⟨fun t => ?_, fun t => dgetD_recordBatchCounts tax day e₁ t⟩
  rw [dgetD_recordBatchCounts, dgetD_recordBatchCounts, h.countP_eq]

/-- C8 witness: the batches `[["x", "y"], ["x"]]` and `[["y"], ["x", "x"]]`
(one topic list per extraction) are a permutation of each other at the
occurrence level; with the taxonomy mapping `"y" → "x"` both record 3 for
topic `"x"`. -/
theorem record_counts_perm_invariant_witness :
    dgetD (recordBatchCounts [("y", "x")] []
        [{ topics := ["x", "y"] }, { topics := ["x"] }]) "x" 0
      = dgetD (recordBatchCounts [("y", "x")] []
        [{ topics := ["y"] }, { topics := ["x", "x"] }]) "x" 0 ∧
    dgetD (recordBatchCounts [("y", "x")] []
        [{ topics := ["x", "y"] }, { topics := ["x"] }]) "x" 0 = 3 := by
  have h := record_counts_perm_invariant [("y", "x")] []
    [{ topics := ["x", "y"] }, { topics := ["x"] }]
    [{ topics := ["y"] }, { topics := ["x", "x"] }]
    (by decide)
  exact ⟨h.1 "x", (h.2 "x").trans (by decide)⟩

/-! Claim C9: persistence round trip. -/

theorem foldl_dinsert_eq_append {K V : Type} [DecidableEq K] (l : List (K × V))
    (d : List (K × V)) (hnd : (dkeys l).Nodup)
    (hdisj : ∀ k, k ∈ dkeys l → k ∉ dkeys d) :
    l.foldl (fun t p => dinsert t p.1 p.2) d = d ++ l := by
  induction l generalizing d with
  | nil => simp
  | cons p l ih =>
      simp only [List.foldl_cons]
      have hp : p.1 ∉ dkeys d := hdisj p.1 (by simp [dkeys])
      rw [dinsert_of_not_mem hp]
      have hnd' : (dkeys l).Nodup := by
        simp only [dkeys, List.map_cons, List.nodup_cons] at hnd
        exact hnd.2
      have hhead : p.1 ∉ dkeys l := by
        simp only [dkeys, List.map_cons, List.nodup_cons] at hnd
        exact hnd.1
      have hdisj' : ∀ k, k ∈ dkeys l → k ∉ dkeys (d ++ [(p.1, p.2)]) := by
        intro k hk
        simp only [dkeys, List.map_append, List.mem_append, List.map_cons, List.map_nil,
          List.mem_singleton, List.not_mem_nil, or_false]
        push_neg
        refine ⟨fun hkd => hdisj k (List.mem_cons_of_mem _ hk) hkd, ?_⟩
        exact fun e => hhead (e ▸ hk)
      rw [ih (d ++ [(p.1, p.2)]) hnd' hdisj']
      simp

/-- C9: saving a processor state and loading it into a fresh processor
restores literally equal taxonomy mapping, daily topic counts and canonical
group list (the date keys of a Python dict are unique, whence the `Nodup`
hypothesis). -/
theorem save_load_round_trip (p : Processor)
    (h : (dkeys p.daily_topic_counts).Nodup) :
    (load_state freshProcessor (save_state p)).topic_taxonomy = p.topic_taxonomy ∧
    (load_state freshProcessor (save_state p)).daily_topic_counts = p.daily_topic_counts ∧
    (load_state freshProcessor (save_state p)).consolidated_topics
      = p.consolidated_topics := by
  refine ⟨rfl, ?_, rfl⟩
  show p.daily_topic_counts.foldl (fun d q => dinsert d q.1 q.2) [] = p.daily_topic_counts
  rw [foldl_dinsert_eq_append _ _ h (by simp [dkeys])]
  simp

/-- C9 witness: round trip on a concrete processor state with two dates, a
taxonomy entry and one consolidated group. -/
theorem save_load_round_trip_witness :
    (load_state freshProcessor (save_state
        ⟨[⟨"g", ["g"], "", "issue"⟩], [("v", "c")],
         [((0 : Int), [("t", 2)]), (1, [("u", 1)])], [⟨["t"]⟩]⟩)).topic_taxonomy
      = [("v", "c")] ∧
    (load_state freshProcessor (save_state
        ⟨[⟨"g", ["g"], "", "issue"⟩], [("v", "c")],
         [((0 : Int), [("t", 2)]), (1, [("u", 1)])], [⟨["t"]⟩]⟩)).daily_topic_counts
      = [((0 : Int), [("t", 2)]), (1, [("u", 1)])] ∧
    (load_state freshProcessor (save_state
        ⟨[⟨"g", ["g"], "", "issue"⟩], [("v", "c")],
         [((0 : Int), [("t", 2)]), (1, [("u", 1)])], [⟨["t"]⟩]⟩)).consolidated_topics
      = [⟨"g", ["g"], "", "issue"⟩] :=
  save_load_round_trip
    ⟨[⟨"g", ["g"], "", "issue"⟩], [("v", "c")],
     [((0 : Int), [("t", 2)]), (1, [("u", 1)])], [⟨["t"]⟩]⟩ (by decide)

/-! Claim C4: the trend window. -/

theorem dateRange_length (e : Date) (days : Nat) : (dateRange e days).length = days := by
  unfold dateRange
  rw [List.length_map, List.length_range]

theorem mem_get_trend_data {counts : List (Date × List (String × Nat))} {e : Date}
    {days : Nat} {t : String} {m : List (Date × Nat)} :
    (t, m) ∈ get_trend_data counts e days ↔
      t ∈ ((dateRange e days).flatMap (fun d => dkeys (dgetD counts d []))).dedup ∧
      m = (dateRange e days).map (fun d => (d, dgetD (dgetD counts d []) t 0)) := by
  unfold get_trend_data
  rw [List.mem_map]
  constructor
  · rintro ⟨a, ha, he⟩
    rw [Prod.mk.injEq] at he
    obtain ⟨h1, h2⟩ := he
    subst h1
    subst h2
    exact ⟨ha, rfl⟩
  · rintro ⟨ht, hm⟩
    exact ⟨t, ht, by rw [hm]⟩

/-- C4 (amended): for positive `days`, `get_trend_data` returns a dense window
(per topic, one entry per date of the inclusive range, zero-filled), includes
exactly the topics recorded as keys on some date of the range, and — whenever
all recorded counts are positive — exactly the topics with a non-zero count in
the range. -/
theorem get_trend_data_spec (counts : List (Date × List (String × Nat)))
    (end_date : Date) (days : Nat) (hdays : 1 ≤ days) :
    TrendWindowSpec counts end_date days := by
  refine ⟨?_, ?_, ?_⟩
  · intro t m hm
    obtain ⟨-, hm⟩ := mem_get_trend_data.1 hm
    subst hm
    refine ⟨by rw [List.map_map]; exact List.map_id _, by simp [dateRange_length], ?_⟩
    intro d c hdc
    rw [List.mem_map] at hdc
    obtain ⟨d', -, he⟩ := hdc
    rw [Prod.mk.injEq] at he
    rw [← he.2, he.1]
  · intro t
    constructor
    · rintro ⟨m, hm⟩
      obtain ⟨ht, -⟩ := mem_get_trend_data.1 hm
      rw [List.mem_dedup, List.mem_flatMap] at ht
      exact ht
    · intro ht
      refine ⟨_, mem_get_trend_data.2 ⟨?_, rfl⟩⟩
      rw [List.mem_dedup, List.mem_flatMap]
      exact ht
  · intro hpos t
    constructor
    · rintro ⟨m, hm⟩
      obtain ⟨ht, -⟩ := mem_get_trend_data.1 hm
      rw [List.mem_dedup, List.mem_flatMap] at ht
      obtain ⟨d, hd, htk⟩ := ht
      refine ⟨d, hd, ?_⟩
      obtain ⟨c, hc⟩ := (mem_dkeys_iff_dget _ _).1 htk
      cases hdc : dget counts d with
      | none =>
          have hnil : dgetD counts d [] = [] := by rw [dgetD, hdc]; rfl
          rw [hnil] at htk
          simp [dkeys] at htk
      | some dc =>
          have hmem : (d, dc) ∈ counts := dget_mem hdc
          have hinner : dgetD counts d [] = dc := by rw [dgetD, hdc]; rfl
          rw [hinner] at hc
          rw [hinner, dgetD, hc]
          exact hpos d dc hmem (t, c) (dget_mem hc)
    · rintro ⟨d, hd, hc⟩
      refine ⟨_, mem_get_trend_data.2 ⟨?_, rfl⟩⟩
      rw [List.mem_dedup, List.mem_flatMap]
      refine ⟨d, hd, ?_⟩
      rw [mem_dkeys_iff_dget]
      cases hg : dget (dgetD counts d []) t with
      | none => rw [dgetD, hg] at hc; simp at hc
      | some c => exact ⟨c, rfl⟩

/-- C4 witness: the spec property evaluated on a concrete two-day window. -/
theorem get_trend_data_spec_witness :
    TrendWindowSpec [((0 : Int), [("t", 1)])] 0 2 :=
  get_trend_data_spec [((0 : Int), [("t", 1)])] 0 2 (by decide)

/-- C4 counterexample: with the recorded (zero) count `{0: {"t": 0}}` — a
state `load_state` accepts — the topic `"t"` is included in
`get_trend_data(0, 1)` although it has no non-zero recorded count anywhere in
the window, contradicting the claim that the included topics are exactly
those with at least one non-zero recorded count in range. -/
theorem get_trend_data_zero_count_included :
    (∃ m, ("t", m) ∈ get_trend_data [((0 : Int), [("t", 0)])] 0 1) ∧
    ¬ (∃ d ∈ dateRange (0 : Date) 1, 0 < dgetD (dgetD [((0 : Int), [("t", 0)])] d []) "t" 0) := by
  constructor
  · exact ⟨[(0, 0)], by decide⟩
  · decide

/-! Claim C5: the trend signal of the report table. -/

theorem trendLabel_spec (counts : List Nat) (t : String) (tot : Nat) :
    TrendLabelSpec ⟨t, counts, tot, trendLabel counts⟩ := by
  simp only [TrendLabelSpec, trendLabel]
  by_cases h14 : 14 ≤ counts.length
  · have hrt : counts.rtake 7 = counts.drop (counts.length - 7) := rfl
    have hlen7 : (counts.take (counts.length - 7)).length - 7 = counts.length - 14 := by
      rw [List.length_take]
      omega
    have hrd : (counts.rdrop 7).rtake 7 = (counts.drop (counts.length - 14)).take 7 := by
      show (counts.take (counts.length - 7)).drop ((counts.take (counts.length - 7)).length - 7)
        = _
      rw [hlen7, List.take_drop]
      have he : counts.length - 14 + 7 = counts.length - 7 := by omega
      rw [he]
    rw [hrt, hrd, if_pos h14]
    refine ⟨fun hlt => absurd h14 (by omega), fun _ => ⟨?_, ?_, ?_⟩⟩
    · intro hprev
      rw [if_pos hprev]
    · intro hprev hrec
      rw [if_neg (by rw [hprev]; exact lt_irrefl 0), if_pos hrec]
    · intro hprev hrec
      rw [if_neg (by rw [hprev]; exact lt_irrefl 0), if_neg (by rw [hrec]; exact lt_irrefl 0)]
  · rw [if_neg h14]
    exact ⟨fun _ => rfl, fun h => absurd h h14⟩

/-- C5: every row of the generated trend table carries counts for exactly
`days` window days and its `Trend` entry follows the 14-day / two-7-day-halves
rule: `"-"` below 14 days, else the signed percentage when the previous-half
average is positive, `"NEW"` when the previous-half average is zero and the
recent-half average positive, and `"-"` when both are zero. -/
theorem generate_trend_table_trend (td : List (String × List (Date × Nat)))
    (target_date : Date) (days : Nat) (r : Row)
    (h : r ∈ generate_trend_table td target_date days) :
    TrendLabelSpec r ∧ r.counts.length = days := by
  have hmem : r ∈ tableRows td target_date days := by
    unfold generate_trend_table sortValuesDesc at h
    rw [List.mem_reverse] at h
    have h2 := (List.perm_insertionSort _ _).mem_iff.1 h
    rwa [List.mem_reverse] at h2
  unfold tableRows at hmem
  rw [List.mem_map] at hmem
  obtain ⟨p, -, hr⟩ := hmem
  subst hr
  exact ⟨trendLabel_spec _ _ _, by simp [dateRange_length]⟩

/-- C5 witness: the row for topic `"t"` in a one-day window (13 < 14 days,
trend `"-"`), obtained through the theorem. -/
theorem generate_trend_table_trend_witness :
    TrendLabelSpec ⟨"t", [1], 1, .dash⟩ ∧
    (Row.mk "t" [1] 1 .dash).counts.length = 1 :=
  generate_trend_table_trend [("t", [((0 : Int), 1)])] 0 1 ⟨"t", [1], 1, .dash⟩ (by decide)

/-! Claim C7: ordering of the report table. -/

theorem sortValuesDesc_sorted (rows : List Row) :
    (sortValuesDesc rows).Pairwise (fun a b => b.total ≤ a.total) := by
  unfold sortValuesDesc
  rw [List.pairwise_reverse]
  have h1 : IsTotal Row (fun a b => a.total ≤ b.total) := ⟨fun a b => Nat.le_total _ _⟩
  have h2 : IsTrans Row (fun a b => a.total ≤ b.total) := ⟨fun _ _ _ => Nat.le_trans⟩
  exact List.sorted_insertionSort _ _

theorem sortValuesDesc_perm (rows : List Row) : List.Perm (sortValuesDesc rows) rows :=
  (List.reverse_perm _).trans ((List.perm_insertionSort _ _).trans (List.reverse_perm _))

theorem filter_orderedInsert_total (n : Nat) (a : Row) (l : List Row) :
    (List.orderedInsert (fun x y => x.total ≤ y.total) a l).filter
        (fun r => decide (r.total = n))
      = if a.total = n then a :: l.filter (fun r => decide (r.total = n))
        else l.filter (fun r => decide (r.total = n)) := by
  induction l with
  | nil => by_cases h : a.total = n <;> simp [List.orderedInsert, h]
  | cons b l ih =>
      simp only [List.orderedInsert]
      by_cases hr : a.total ≤ b.total
      · rw [if_pos hr]
        by_cases h : a.total = n <;> simp [List.filter_cons, h]
      · rw [if_neg hr]
        have hba : b.total < a.total := Nat.lt_of_not_le hr
        by_cases hb : b.total = n
        · have ha : ¬ a.total = n := by omega
          simp [List.filter_cons, hb, ih, ha]
        · by_cases h : a.total = n <;> simp [List.filter_cons, hb, ih, h]

theorem filter_insertionSort_total (n : Nat) (l : List Row) :
    (List.insertionSort (fun x y => x.total ≤ y.total) l).filter
        (fun r => decide (r.total = n))
      = l.filter (fun r => decide (r.total = n)) := by
  induction l with
  | nil => rfl
  | cons a l ih =>
      show (List.orderedInsert _ a (List.insertionSort _ l)).filter _ = _
      rw [filter_orderedInsert_total]
      by_cases h : a.total = n <;> simp [List.filter_cons, h, ih]

/-- C7: the generated trend table is sorted by `Total` descending, is a
permutation of the encounter-order rows, and is tie-stable: for every total
value, the rows carrying that total appear in exactly their encounter order
from the input trend data (pandas `nargsort` pre-reverses before the stable
ascending argsort and reverses the indexer after, so descending sorts keep
tied rows in original order). -/
theorem generate_trend_table_order (td : List (String × List (Date × Nat)))
    (target_date : Date) (days : Nat) :
    (generate_trend_table td target_date days).Pairwise (fun a b => b.total ≤ a.total) ∧
    List.Perm (generate_trend_table td target_date days) (tableRows td target_date days) ∧
    ∀ n : Nat, (generate_trend_table td target_date days).filter
        (fun r => decide (r.total = n))
      = (tableRows td target_date days).filter (fun r => decide (r.total = n)) := by
  refine ⟨sortValuesDesc_sorted _, sortValuesDesc_perm _, fun n => ?_⟩
  unfold generate_trend_table sortValuesDesc
  rw [List.filter_reverse, filter_insertionSort_total, List.filter_reverse,
    List.reverse_reverse]

end ReviewTrend
